import Mathlib

/-!
Shallow embedding of the map/movement core of the Civilization-Revolution
remake, together with proofs of the specified properties.

Conventions of the embedding:
* JavaScript numbers are modelled by `ℤ` where the program only ever holds
  integers (coordinates, movement points, action points) and by `ℚ` where
  fractional values can occur (terrain modifiers, distances); the value
  `Infinity` produced by the movement-cost functions is modelled by `⊤` in
  `WithTop ℚ`.
* `Math.round` rounds half toward positive infinity, exactly as Mathlib's
  `round` on `ℚ` does.
* JavaScript string tags (terrain kinds, travel classes) are modelled by
  inductive enumerations.
* `Array.prototype.sort` with the comparator `(a, b) => a.f - b.f` is, by the
  ECMAScript specification, a stable sort by the key `f` (a `NaN` comparator
  result, which arises only when both keys are `Infinity`, is treated as `0`);
  a stable sorted permutation is unique, so the insertion sort below computes
  exactly the array the program produces.
-/

/-- Cube coordinate triple as returned by `hexRound` in
`src/components/HexTile.js`. -/
structure Cube where
  q : ℤ
  r : ℤ
  s : ℤ
deriving DecidableEq

/-- Terrain kinds appearing in `src/components/HexTile.js`
(`setTerrainProperties`); the `default` branch of the switch coincides with
`grass`. -/
inductive Terrain where
  | grass | plains | hills | forest | jungle | desert | tundra | snow
  | mountain | coast | ocean | river
deriving DecidableEq

/-- Movement cost assigned by `setTerrainProperties` in
`src/components/HexTile.js`. -/
def Terrain.movementCost : Terrain → ℚ
  | .grass => 1
  | .plains => 1
  | .hills => 2
  | .forest => 2
  | .jungle => 3
  | .desert => 1
  | .tundra => 2
  | .snow => 3
  | .mountain => 99
  | .coast => 1
  | .ocean => 99
  | .river => 2

/-- Passability assigned by `setTerrainProperties` in
`src/components/HexTile.js`. -/
def Terrain.passable : Terrain → Bool
  | .mountain => false
  | .ocean => false
  | _ => true

/-- A hex tile (`src/components/HexTile.js`): cube coordinates, terrain kind,
and the terrain-derived passability and movement cost fields set by the
constructor via `setTerrainProperties`.  Yield, ownership and occupancy fields
are not read by any embedded operation and are omitted. -/
structure HexTile where
  q : ℤ
  r : ℤ
  s : ℤ
  type : Terrain
  passable : Bool
  movementCost : ℚ
deriving DecidableEq

/-- The `HexTile` constructor for a fresh tile: stores the coordinates and
terrain kind and applies `setTerrainProperties`. -/
def mkHexTile (q r s : ℤ) (t : Terrain) : HexTile :=
  ⟨q, r, s, t, t.passable, t.movementCost⟩

namespace HexTile

/-- `hexRound` from `src/components/HexTile.js`: recomputes `s = -q - r`,
rounds all three components, and recomputes the component with the largest
absolute rounding error from the other two. -/
def hexRound (q r : ℚ) : Cube :=
  let s : ℚ := -q - r
  let qi : ℤ := round q
  let ri : ℤ := round r
  let si : ℤ := round s
  let qDiff : ℚ := |(qi : ℚ) - q|
  let rDiff : ℚ := |(ri : ℚ) - r|
  let sDiff : ℚ := |(si : ℚ) - s|
  if qDiff > rDiff ∧ qDiff > sDiff then ⟨-ri - si, ri, si⟩
  else if rDiff > sDiff then ⟨qi, -qi - si, si⟩
  else ⟨qi, ri, -qi - ri⟩

/-- `hexToPixel` from `src/components/HexTile.js` with `size = 1`:
`x = 3/2 · q` and `z = √3 · (q/2 + r)`.  The second component below stores
`z / √3`, which is rational; this is an exact model of the computation (the
program's floating-point `Math.sqrt(3.0)` factor is carried symbolically), and
`pixelToHex` below consumes the same representation. -/
def hexToPixel (q r : ℚ) : ℚ × ℚ :=
  (3 / 2 * q, q / 2 + r)

/-- `pixelToHex` from `src/components/HexTile.js`:
`q = 2/3 · x` and `r = -1/3 · x + (√3/3) · z`; with `z` stored in units of
`√3` (see `hexToPixel`) the second summand is exactly `z / √3`. -/
def pixelToHex (x zs : ℚ) : Cube :=
  hexRound (2 / 3 * x) (-(1 / 3) * x + zs)

/-- `distanceTo` from `src/components/HexTile.js`:
`(|Δq| + |Δr| + |Δs|) / 2` over the stored cube coordinates. -/
def distanceTo (t o : HexTile) : ℚ :=
  ((|t.q - o.q| + |t.r - o.r| + |t.s - o.s| : ℤ) : ℚ) / 2

end HexTile

/-- The unit component of the hex engine (`src/components/Unit.js`), reduced to
the fields read or written by the embedded operations (`performAction`,
`moveTo`, `resetTurn`); combat statistics and the mesh reference are omitted.
The class is named `Unit` in the source; `UnitHex` avoids the clash with
Lean's built-in `Unit`. -/
structure UnitHex where
  position : ℤ × ℤ × ℤ
  movement : ℤ
  maxMovement : ℤ
  actionPoints : ℤ
  maxActionPoints : ℤ
deriving DecidableEq

namespace UnitHex

/-- `performAction` from `src/components/Unit.js`: decrements `actionPoints`
and reports `true` when it is positive, otherwise reports `false` and leaves
the unit unchanged. -/
def performAction (u : UnitHex) : Bool × UnitHex :=
  if 0 < u.actionPoints then (true, { u with actionPoints := u.actionPoints - 1 })
  else (false, u)

/-- `moveTo` from `src/components/Unit.js`: when `movement` is positive the
position is overwritten and `movement` decremented by one, otherwise the call
fails and changes nothing. -/
def moveTo (u : UnitHex) (newPosition : ℤ × ℤ × ℤ) : Bool × UnitHex :=
  if 0 < u.movement then
    (true, { u with position := newPosition, movement := u.movement - 1 })
  else (false, u)

/-- `resetTurn` from `src/components/Unit.js`. -/
def resetTurn (u : UnitHex) : UnitHex :=
  { u with actionPoints := u.maxActionPoints, movement := u.maxMovement }

/-- A sequence of `n` consecutive `performAction` calls (the success flags are
discarded, as a caller issuing repeated debits would). -/
def performActionIter : ℕ → UnitHex → UnitHex
  | 0, u => u
  | n + 1, u => (performAction (performActionIter n u)).2

end UnitHex

/-- The unit component of the rectangular engine (the unnamed source file
defining `class Unit { constructor(type, owner, x, y) ... }`), reduced to the
fields its embedded operations touch.  Named `UnitRect` to avoid the clash
with Lean's built-in `Unit`. -/
structure UnitRect where
  owner : ℤ
  position : ℤ × ℤ
  movement : ℤ
  maxMovement : ℤ
  actionsRemaining : ℤ
deriving DecidableEq

namespace UnitRect

/-- `move` of the rectangular engine's unit component: when `movement` is
positive the position is overwritten and `movement` decremented by one,
otherwise the call fails and changes nothing. -/
def move (u : UnitRect) (x y : ℤ) : Bool × UnitRect :=
  if 0 < u.movement then
    (true, { u with position := (x, y), movement := u.movement - 1 })
  else (false, u)

end UnitRect

/-- A unit entity as assembled in `src/game.js`: a `Position` component
(`src/components/Position.js`, an `x`/`y` pair) together with the unit
component.  Entity id and render component are omitted. -/
structure EntityU where
  position : ℤ × ℤ
  unit : UnitRect
deriving DecidableEq

namespace Game

/-- `moveUnit` from `src/game.js` (lines 356-376), for an entity that exists
and has a unit component: rejects the move when the unit is not owned by the
current player or when the Manhattan distance to the target exceeds the
unit's remaining movement points; otherwise sets the entity's `Position`
component, calls `unit.move` (whose return value the source discards), and
reports success. -/
def moveUnit (e : EntityU) (currentPlayerId toX toY : ℤ) : Bool × EntityU :=
  if e.unit.owner ≠ currentPlayerId then (false, e)
  else if |e.position.1 - toX| + |e.position.2 - toY| > e.unit.movement then (false, e)
  else
    let e1 : EntityU := { e with position := (toX, toY) }
    (true, { e1 with unit := (e1.unit.move toX toY).2 })

end Game

/-- Stable insertion of an element into a list sorted by the key `key`.  The
sort below folds from the right, so the inserted element originally preceded
every element of the list it is inserted into and must land before the
existing elements of equal key: it skips only strictly smaller keys. -/
def insertByKey {α : Type} (key : α → WithTop ℚ) (a : α) : List α → List α
  | [] => [a]
  | b :: rest => if key b < key a then b :: insertByKey key a rest else a :: b :: rest

/-- Stable sort by the key `key`; see the module docstring for why this is
exactly the array `Array.prototype.sort((a, b) => a.f - b.f)` produces. -/
def sortByKey {α : Type} (key : α → WithTop ℚ) : List α → List α
  | [] => []
  | a :: rest => insertByKey key a (sortByKey key rest)

namespace GameMap

/-- The tile store of `src/systems/GameMap.js` (`this.tiles`, a
coordinate-indexed nested object), modelled as a finite list of tiles looked
up by their `q`/`r` coordinates. -/
abbrev Grid := List HexTile

/-- `getTile` from `src/systems/GameMap.js`. -/
def getTile (g : Grid) (q r : ℤ) : Option HexTile :=
  g.find? fun t => decide (t.q = q) && decide (t.r = r)

/-- The six cube directions of `getAdjacentTiles` in
`src/systems/GameMap.js`, in source order (the `s` components are not used for
the lookup). -/
def hexDirections : List (ℤ × ℤ) :=
  [(1, 0), (1, -1), (0, -1), (-1, 0), (-1, 1), (0, 1)]

/-- `getAdjacentTiles` from `src/systems/GameMap.js`: the existing tiles at
the six neighboring coordinates, in direction order. -/
def getAdjacentTiles (g : Grid) (t : HexTile) : List HexTile :=
  hexDirections.filterMap fun d => getTile g (t.q + d.1) (t.r + d.2)

/-- `hexDistance` from `src/systems/GameMap.js`: recomputes both `s`
components and returns `(|Δq| + |Δr| + |Δs|) / 2`. -/
def hexDistance (q1 r1 q2 r2 : ℤ) : ℚ :=
  ((|q1 - q2| + |r1 - r2| + |(-q1 - r1) - (-q2 - r2)| : ℤ) : ℚ) / 2

/-- `estimateDistance` from `src/systems/GameMap.js`. -/
def estimateDistance (t1 t2 : HexTile) : ℚ :=
  hexDistance t1.q t1.r t2.q t2.r

/-- Travel classes consumed by `getMovementCost` in
`src/systems/GameMap.js`; the source compares string tags, and every string
other than the two special tags behaves like the default `infantry`. -/
inductive MoveType where
  | infantry | naval | air
deriving DecidableEq

/-- `getMovementCost` from `src/systems/GameMap.js` (lines 349-363): base cost
is the destination tile's `movementCost`; naval movers pay 1 on ocean, are
rejected with `Infinity` off ocean/coast, and pay the base cost on coast; air
movers always pay 1.  The `fromTile` argument is unused, as in the source. -/
def getMovementCost (fromTile toTile : HexTile) (mt : MoveType) : WithTop ℚ :=
  if mt = .naval ∧ toTile.type = .ocean then (1 : ℚ)
  else if mt = .naval ∧ toTile.type ≠ .coast ∧ toTile.type ≠ .ocean then ⊤
  else if mt = .air then (1 : ℚ)
  else (toTile.movementCost : ℚ)

/-- A search node of `findPath` in `src/systems/GameMap.js`: the tile, the
accumulated cost `g`, the heuristic `h`, the priority `f`, and the parent
pointer (`root` models `parent: null`). -/
inductive GNode where
  | root (tile : HexTile) (g : WithTop ℚ) (h : ℚ) (f : WithTop ℚ)
  | child (tile : HexTile) (g : WithTop ℚ) (h : ℚ) (f : WithTop ℚ) (parent : GNode)

/-- The node's tile. -/
def GNode.tile : GNode → HexTile
  | .root t _ _ _ => t
  | .child t _ _ _ _ => t

/-- The node's accumulated cost. -/
def GNode.g : GNode → WithTop ℚ
  | .root _ g _ _ => g
  | .child _ g _ _ _ => g

/-- The node's heuristic value. -/
def GNode.h : GNode → ℚ
  | .root _ _ h _ => h
  | .child _ _ h _ _ => h

/-- The node's priority `f`. -/
def GNode.f : GNode → WithTop ℚ
  | .root _ _ _ f => f
  | .child _ _ _ f _ => f

/-- Path reconstruction in `src/systems/GameMap.js` (lines 289-295): walk the
parent pointers, prepending every visited node's tile — the start tile (the
parentless node) is included. -/
def reconstruct : GNode → List HexTile
  | .root t _ _ _ => [t]
  | .child t _ _ _ p => reconstruct p ++ [t]

/-- Replace (in place) the first open-set node on the given coordinates with
its relaxed version, as the source's mutation of the node found by
`openSet.find` does: `g` and the parent are overwritten and `f` is recomputed
from the stored `h`. -/
def gRelax (q r : ℤ) (tg : WithTop ℚ) (par : GNode) : List GNode → List GNode
  | [] => []
  | n :: rest =>
    if n.tile.q = q ∧ n.tile.r = r then
      (match n with
       | .root t g h f => GNode.child t tg h (tg + (h : ℚ)) par
       | .child t g h f _ => GNode.child t tg h (tg + (h : ℚ)) par) :: rest
    else n :: gRelax q r tg par rest

/-- One neighbor step of the loop body of `findPath` in
`src/systems/GameMap.js`: skip closed or impassable neighbors; otherwise
compute the tentative cost and either push a fresh node or relax the existing
open-set entry when the new cost is strictly smaller. -/
def gStep (g : Grid) (endTile : HexTile) (mt : MoveType) (cur : GNode)
    (closed : List (ℤ × ℤ)) (openSet : List GNode) (nb : HexTile) : List GNode :=
  if (nb.q, nb.r) ∈ closed ∨ nb.passable = false then openSet
  else
    let tg : WithTop ℚ := cur.g + getMovementCost cur.tile nb mt
    match openSet.find? fun n => decide (n.tile.q = nb.q) && decide (n.tile.r = nb.r) with
    | none =>
      let h : ℚ := estimateDistance nb endTile
      openSet ++ [GNode.child nb tg h (tg + (h : ℚ)) cur]
    | some exN =>
      if tg < exN.g then gRelax nb.q nb.r tg cur openSet else openSet

/-- The `while (openSet.length > 0)` loop of `findPath` in
`src/systems/GameMap.js`, with explicit fuel.  Each iteration sorts the open
set by `f` (stable), pops the head, returns the reconstructed path when the
popped node is on the goal coordinates, and otherwise expands its neighbors
and closes it.  A coordinate enters the open set at most once, so
`grid length + 1` fuel (supplied by `findPath` below) always outlasts the
loop. -/
def findPathLoop (g : Grid) (endTile : HexTile) (mt : MoveType) :
    ℕ → List GNode → List (ℤ × ℤ) → Option (List HexTile)
  | 0, _, _ => none
  | fuel + 1, openSet, closed =>
    match sortByKey GNode.f openSet with
    | [] => none
    | cur :: rest =>
      if cur.tile.q = endTile.q ∧ cur.tile.r = endTile.r then some (reconstruct cur)
      else
        let openNext := (getAdjacentTiles g cur.tile).foldl (gStep g endTile mt cur closed) rest
        findPathLoop g endTile mt fuel openNext (closed ++ [(cur.tile.q, cur.tile.r)])

/-- `findPath` from `src/systems/GameMap.js` (lines 268-341): seeds the open
set with the start node (`g = 0`, `f = 0`), pre-closes the start coordinates,
and runs the A* loop. -/
def findPath (g : Grid) (startTile endTile : HexTile) (mt : MoveType) :
    Option (List HexTile) :=
  let startNode := GNode.root startTile 0 (estimateDistance startTile endTile) 0
  findPathLoop g endTile mt (g.length + 1) [startNode] [(startTile.q, startTile.r)]

end GameMap

namespace Pathfinder

/-- A tile of the rectangular engine (`src/components/Tile.js`), reduced to
the coordinate and the two fields the pathfinder reads. -/
structure RTile where
  x : ℤ
  y : ℤ
  walkable : Bool
  terrainModifier : ℚ
deriving DecidableEq

/-- The rectangular map `gameState.map`: an array of columns
(`map[x][y]`). -/
abbrev RGrid := List (List RTile)

/-- A coordinate pair of the rectangular grid. -/
abbrev Coord := ℤ × ℤ

/-- `map[0].length` as read by `isValidCoordinate` (0 when the map is
empty). -/
def mapHeight (g : RGrid) : ℕ := (g.headD []).length

/-- `isValidCoordinate` from `src/utils/Pathfinder.js`. -/
def isValidCoordinate (g : RGrid) (x y : ℤ) : Prop :=
  0 ≤ x ∧ x < (g.length : ℤ) ∧ 0 ≤ y ∧ y < (mapHeight g : ℤ)

instance (g : RGrid) (x y : ℤ) : Decidable (isValidCoordinate g x y) :=
  inferInstanceAs (Decidable (_ ∧ _ ∧ _ ∧ _))

/-- `getTileAt` from `src/utils/Pathfinder.js`: bounds-checked indexing into
the nested array (`none` both for out-of-bounds coordinates and for a row
shorter than `map[0].length`, where the source yields `undefined`). -/
def getTileAt (g : RGrid) (x y : ℤ) : Option RTile :=
  if isValidCoordinate g x y then
    match g.get? x.toNat with
    | some col => col.get? y.toNat
    | none => none
  else none

/-- `heuristic` from `src/utils/Pathfinder.js`: Manhattan distance. -/
def heuristic (x1 y1 x2 y2 : ℤ) : ℤ :=
  |x1 - x2| + |y1 - y2|

/-- The four directions of `getNeighbors`, in source order
(north, east, south, west). -/
def rectDirections : List Coord := [(0, -1), (1, 0), (0, 1), (-1, 0)]

/-- `getNeighbors` from `src/utils/Pathfinder.js`: the in-bounds, existing,
walkable neighbor coordinates, in direction order. -/
def getNeighbors (g : RGrid) (x y : ℤ) : List Coord :=
  rectDirections.filterMap fun d =>
    match getTileAt g (x + d.1) (y + d.2) with
    | some t => if t.walkable then some (x + d.1, y + d.2) else none
    | none => none

/-- `getMovementCost` from `src/utils/Pathfinder.js`: `Infinity` for a missing
tile, otherwise `tile.terrainModifier || 1` (the falsy modifier `0` becomes
`1`).  The first argument is read only for its coordinates' sake in the
source signature and is unused, as there. -/
def getMovementCost (g : RGrid) (fromC toC : Coord) : WithTop ℚ :=
  match getTileAt g toC.1 toC.2 with
  | none => ⊤
  | some t => if t.terrainModifier = 0 then (1 : ℚ) else (t.terrainModifier : ℚ)

/-- A search node of `findPath` in `src/utils/Pathfinder.js`.  The parent
pointer is kept in the coordinate-keyed parent map of the search state: every
coordinate is materialized as at most one node object, so the map captures the
source's pointer aliasing exactly. -/
structure RNode where
  x : ℤ
  y : ℤ
  g : WithTop ℚ
  h : WithTop ℚ
  f : WithTop ℚ
deriving DecidableEq

/-- Lookup in the parent map (first entry with the given key). -/
def parLookup (m : List (Coord × Coord)) (c : Coord) : Option Coord :=
  (m.find? fun e => decide (e.1 = c)).map (·.2)

/-- Set the parent of `c` to `p`: replace the existing entry or append a new
one. -/
def parUpdate (m : List (Coord × Coord)) (c p : Coord) : List (Coord × Coord) :=
  match m with
  | [] => [(c, p)]
  | e :: rest => if e.1 = c then (c, p) :: rest else e :: parUpdate rest c p

/-- The mutable state of the `findPath` loop: the open set (in the array
order the source maintains), the closed set, and the parent pointers. -/
structure SState where
  openSet : List RNode
  closedSet : List Coord
  parMap : List (Coord × Coord)

/-- `openSet.findIndex(node => node.x === neighbor.x && node.y === neighbor.y)`
as an option-valued find. -/
def findNode (l : List RNode) (c : Coord) : Option RNode :=
  l.find? fun n => decide (n.x = c.1) && decide (n.y = c.2)

/-- In-place relaxation of the existing open-set node on coordinates `c`:
`g` and `f` are overwritten (`f` from the stored `h`), the list order is
unchanged. -/
def updateNode (l : List RNode) (c : Coord) (tg : WithTop ℚ) : List RNode :=
  match l with
  | [] => []
  | n :: rest =>
    if n.x = c.1 ∧ n.y = c.2 then { n with g := tg, f := tg + n.h } :: rest
    else n :: updateNode rest c tg

/-- The relaxation part of the neighbor step of `findPath` in
`src/utils/Pathfinder.js` (lines 82-106): relax the existing open-set node
(decrease-key with parent rewrite) when the tentative cost improves on it, or
push a fresh node when the coordinate is not in the open set. -/
def relaxStep (g : RGrid) (endX endY : ℤ) (cur : RNode) (st : SState)
    (nb : Coord) : SState :=
  let tg : WithTop ℚ := cur.g + getMovementCost g (cur.x, cur.y) nb
  match findNode st.openSet nb with
  | some exN =>
    if tg < exN.g then
      ⟨updateNode st.openSet nb tg, st.closedSet, parUpdate st.parMap nb (cur.x, cur.y)⟩
    else st
  | none =>
    let hN : WithTop ℚ := ((heuristic nb.1 nb.2 endX endY : ℤ) : ℚ)
    ⟨st.openSet ++ [⟨nb.1, nb.2, tg, hN, tg + hN⟩], st.closedSet,
      parUpdate st.parMap nb (cur.x, cur.y)⟩

/-- One neighbor step of the loop body of `findPath` in
`src/utils/Pathfinder.js` (lines 65-107): skip closed neighbors; compute the
tentative cost; prune it against the movement budget when one was supplied;
otherwise relax (`relaxStep`). -/
def processNeighbor (g : RGrid) (mb : Option ℚ) (endX endY : ℤ) (cur : RNode)
    (st : SState) (nb : Coord) : SState :=
  if nb ∈ st.closedSet then st
  else
    let tg : WithTop ℚ := cur.g + getMovementCost g (cur.x, cur.y) nb
    match mb with
    | none => relaxStep g endX endY cur st nb
    | some b => if (b : WithTop ℚ) < tg then st else relaxStep g endX endY cur st nb

/-- `reconstructPath`'s pointer walk, over the parent map: prepend the current
coordinate and step to its parent while a parent exists (the parentless start
is not included).  The walk is fueled; the fuel supplied by `reconstructPath`
below outlasts any chain the search builds (the chains are acyclic with
pairwise-distinct keys). -/
def reconWalk (m : List (Coord × Coord)) : ℕ → Coord → List Coord → Option (List Coord)
  | 0, _, _ => none
  | fuel + 1, c, acc =>
    match parLookup m c with
    | none => some acc
    | some p => reconWalk m fuel p (c :: acc)

/-- `reconstructPath` from `src/utils/Pathfinder.js` (lines 203-214). -/
def reconstructPath (m : List (Coord × Coord)) (c : Coord) : Option (List Coord) :=
  reconWalk m (m.length + 1) c []

/-- The `while (openSet.length > 0)` loop of `findPath` in
`src/utils/Pathfinder.js` (lines 48-108), with explicit fuel: sort the open
set by `f` (stable), pop the head, reconstruct when it is the goal, otherwise
close it and process its walkable neighbors. -/
def astarLoop (g : RGrid) (mb : Option ℚ) (endX endY : ℤ) :
    ℕ → SState → Option (List Coord)
  | 0, _ => none
  | fuel + 1, st =>
    match sortByKey RNode.f st.openSet with
    | [] => none
    | cur :: rest =>
      if cur.x = endX ∧ cur.y = endY then reconstructPath st.parMap (cur.x, cur.y)
      else
        let st1 : SState := ⟨rest, st.closedSet ++ [(cur.x, cur.y)], st.parMap⟩
        let st2 := (getNeighbors g cur.x cur.y).foldl (processNeighbor g mb endX endY cur) st1
        astarLoop g mb endX endY fuel st2

/-- `findPath` from `src/utils/Pathfinder.js` (lines 20-112): identical start
and goal short-circuit to the empty path before any grid validation; a
missing or unwalkable goal tile short-circuits to `none`; otherwise the A*
loop runs from the start node (`g = 0`, `f = 0 + h`).  Each coordinate enters
the open set at most once, so `width · height + 1` fuel outlasts the loop. -/
def findPath (g : RGrid) (startX startY endX endY : ℤ) (maxMovement : Option ℚ) :
    Option (List Coord) :=
  if startX = endX ∧ startY = endY then some []
  else
    match getTileAt g endX endY with
    | none => none
    | some t =>
      if t.walkable = false then none
      else
        let h0 : WithTop ℚ := ((heuristic startX startY endX endY : ℤ) : ℚ)
        let startNode : RNode := ⟨startX, startY, 0, h0, 0 + h0⟩
        astarLoop g maxMovement endX endY (g.length * mapHeight g + 1)
          ⟨[startNode], [], []⟩

/-- The coordinates of a search node. -/
def nodeCoord (n : RNode) : Coord := (n.x, n.y)

/-- Total movement cost of a coordinate sequence: the sum of
`getMovementCost` over consecutive pairs (the edge costs the search
accumulates into `g`). -/
def pathCost (g : RGrid) : List Coord → WithTop ℚ
  | [] => 0
  | [_] => 0
  | a :: b :: rest => getMovementCost g a b + pathCost g (b :: rest)

/-- The parent-pointer walk of `reconstructPath` as a relation:
`WalkFrom m root c l` states that walking the parent map `m` from `c` stops at
the parentless coordinate `root` and collects exactly `l` (the visited
coordinates from the one after `root` up to and including `c`). -/
inductive WalkFrom (m : List (Coord × Coord)) (root : Coord) : Coord → List Coord → Prop
  | base : parLookup m root = none → WalkFrom m root root []
  | step {c p : Coord} {l : List Coord} : parLookup m c = some p →
      WalkFrom m root p l → WalkFrom m root c (l ++ [c])

/-- The search-state invariant of the `findPath` loop, for start coordinate
`s` and budget `mb`: open-set coordinates are pairwise distinct and not
closed; every parent entry points from a walkable neighbor (never from the
start); every open node's `g` is the accumulated cost of its acyclic parent
chain from the start, whose interior is closed; and with a budget supplied,
every open node other than the start respects it. -/
structure Inv (g : RGrid) (mb : Option ℚ) (s : Coord) (st : SState) : Prop where
  coordsNodup : (st.openSet.map nodeCoord).Nodup
  openNotClosed : ∀ n ∈ st.openSet, nodeCoord n ∉ st.closedSet
  parOk : ∀ c p : Coord, parLookup st.parMap c = some p →
    c ∈ getNeighbors g p.1 p.2 ∧ c ≠ s
  chains : ∀ n ∈ st.openSet, ∃ l : List Coord,
    WalkFrom st.parMap s (nodeCoord n) l ∧
    n.g = pathCost g (s :: l) ∧
    l.Nodup ∧
    (∀ c ∈ l, c ∈ st.closedSet ∨ c = nodeCoord n)
  gbound : ∀ b : ℚ, mb = some b → ∀ n ∈ st.openSet, nodeCoord n ≠ s →
    n.g ≤ (b : WithTop ℚ)
  phase : s ∈ st.closedSet ∨ (st.closedSet = [] ∧ st.parMap = [])

/-- The invariant maintained while the popped node `cur` (with parent chain
`lcur`) has its neighbors processed: the state invariant, the frozen closed
set, and `cur`'s chain in the evolving parent map. -/
def PInv (g : RGrid) (mb : Option ℚ) (s : Coord) (cur : RNode) (lcur : List Coord)
    (closedA : List Coord) (st : SState) : Prop :=
  Inv g mb s st ∧ st.closedSet = closedA ∧ WalkFrom st.parMap s (nodeCoord cur) lcur

end Pathfinder

/-- Rounding an exact integer triple is the identity up to recomputing `s`
from the zero-sum invariant. -/
theorem hexRound_intCast (q r : ℤ) :
    HexTile.hexRound (q : ℚ) (r : ℚ) = ⟨q, r, -q - r⟩ := by
  unfold HexTile.hexRound
  dsimp only
  have hq : round ((q : ℚ)) = q := round_intCast q
  have hr : round ((r : ℚ)) = r := round_intCast r
  have hs : round (-(q : ℚ) - (r : ℚ)) = -q - r := by
    rw [show (-(q : ℚ) - (r : ℚ)) = ((-q - r : ℤ) : ℚ) by push_cast; ring, round_intCast]
  rw [hq, hr, hs]
  norm_num

/-- C5.  Every coordinate produced by `hexRound` satisfies `q + r + s = 0`
exactly: the component with the largest absolute rounding error is recomputed
from the other two, so every branch forces the zero-sum invariant. -/
theorem hexRound_sum_eq_zero (qf rf : ℚ) :
    (HexTile.hexRound qf rf).q + (HexTile.hexRound qf rf).r +
      (HexTile.hexRound qf rf).s = 0 := by
  unfold HexTile.hexRound
  dsimp only
  split_ifs <;> dsimp only <;> ring

/-- C6.  For every integer cube coordinate with zero component sum,
converting to pixel space and back is the identity:
`pixelToHex (hexToPixel c) = c`. -/
theorem pixelToHex_hexToPixel (c : Cube) (hsum : c.q + c.r + c.s = 0) :
    HexTile.pixelToHex (HexTile.hexToPixel (c.q : ℚ) (c.r : ℚ)).1
      (HexTile.hexToPixel (c.q : ℚ) (c.r : ℚ)).2 = c := by
  unfold HexTile.hexToPixel HexTile.pixelToHex
  have h1 : 2 / 3 * (3 / 2 * (c.q : ℚ)) = (c.q : ℚ) := by ring
  have h2 : -(1 / 3) * (3 / 2 * (c.q : ℚ)) + ((c.q : ℚ) / 2 + (c.r : ℚ)) = (c.r : ℚ) := by
    ring
  rw [h1, h2, hexRound_intCast]
  have : c.s = -c.q - c.r := by omega
  cases c
  simp_all

/-- Witness for C6 at the concrete coordinate `(2, -3, 1)`. -/
theorem pixelToHex_hexToPixel_witness :
    HexTile.pixelToHex (HexTile.hexToPixel ((2 : ℤ) : ℚ) ((-3 : ℤ) : ℚ)).1
      (HexTile.hexToPixel ((2 : ℤ) : ℚ) ((-3 : ℤ) : ℚ)).2 = ⟨2, -3, 1⟩ :=
  pixelToHex_hexToPixel ⟨2, -3, 1⟩ (by decide)

/-- C7.  `distanceTo` is literally `(|Δq| + |Δr| + |Δs|) / 2`, and on zero-sum
cube coordinates it is reflexive-zero, symmetric and satisfies the triangle
inequality; `hexDistance` of the map system (which recomputes both `s`
components itself) satisfies the same three laws. -/
theorem distance_spec :
    (∀ a b c : HexTile, a.s = -a.q - a.r → b.s = -b.q - b.r → c.s = -c.q - c.r →
      HexTile.distanceTo a b =
          ((|a.q - b.q| + |a.r - b.r| + |a.s - b.s| : ℤ) : ℚ) / 2 ∧
        HexTile.distanceTo a a = 0 ∧
        HexTile.distanceTo a b = HexTile.distanceTo b a ∧
        HexTile.distanceTo a c ≤ HexTile.distanceTo a b + HexTile.distanceTo b c) ∧
    (∀ q1 r1 q2 r2 q3 r3 : ℤ,
      GameMap.hexDistance q1 r1 q1 r1 = 0 ∧
        GameMap.hexDistance q1 r1 q2 r2 = GameMap.hexDistance q2 r2 q1 r1 ∧
        GameMap.hexDistance q1 r1 q3 r3 ≤
          GameMap.hexDistance q1 r1 q2 r2 + GameMap.hexDistance q2 r2 q3 r3) := by
  constructor
  · intro a b c _ _ _
    refine ⟨rfl, ?_, ?_, ?_⟩
    · simp [HexTile.distanceTo]
    · simp [HexTile.distanceTo, abs_sub_comm]
    · unfold HexTile.distanceTo
      have hq := abs_sub_le a.q b.q c.q
      have hr := abs_sub_le a.r b.r c.r
      have hs := abs_sub_le a.s b.s c.s
      have hcast :
          ((|a.q - c.q| + |a.r - c.r| + |a.s - c.s| : ℤ) : ℚ) ≤
            ((|a.q - b.q| + |a.r - b.r| + |a.s - b.s| : ℤ) : ℚ) +
              ((|b.q - c.q| + |b.r - c.r| + |b.s - c.s| : ℤ) : ℚ) := by
        push_cast
        have hq' : ((|a.q - c.q| : ℤ) : ℚ) ≤ _ := Int.cast_le.mpr hq
        have hr' : ((|a.r - c.r| : ℤ) : ℚ) ≤ _ := Int.cast_le.mpr hr
        have hs' : ((|a.s - c.s| : ℤ) : ℚ) ≤ _ := Int.cast_le.mpr hs
        push_cast at hq' hr' hs'
        linarith
      linarith
  · intro q1 r1 q2 r2 q3 r3
    refine ⟨?_, ?_, ?_⟩
    · simp [GameMap.hexDistance]
    · simp [GameMap.hexDistance, abs_sub_comm]
    · unfold GameMap.hexDistance
      have hq := abs_sub_le q1 q2 q3
      have hr := abs_sub_le r1 r2 r3
      have hs := abs_sub_le (-q1 - r1) (-q2 - r2) (-q3 - r3)
      have hcast :
          ((|q1 - q3| + |r1 - r3| + |(-q1 - r1) - (-q3 - r3)| : ℤ) : ℚ) ≤
            ((|q1 - q2| + |r1 - r2| + |(-q1 - r1) - (-q2 - r2)| : ℤ) : ℚ) +
              ((|q2 - q3| + |r2 - r3| + |(-q2 - r2) - (-q3 - r3)| : ℤ) : ℚ) := by
        exact_mod_cast by linarith
      linarith

/-- Witness for C7 at three concrete zero-sum tiles. -/
theorem distance_spec_witness :
    HexTile.distanceTo (mkHexTile 0 0 0 .grass) (mkHexTile 2 (-1) (-1) .plains) =
        ((|(0 : ℤ) - 2| + |(0 : ℤ) - (-1)| + |(0 : ℤ) - (-1)| : ℤ) : ℚ) / 2 ∧
      HexTile.distanceTo (mkHexTile 0 0 0 .grass) (mkHexTile 0 0 0 .grass) = 0 ∧
      HexTile.distanceTo (mkHexTile 0 0 0 .grass) (mkHexTile 2 (-1) (-1) .plains) =
        HexTile.distanceTo (mkHexTile 2 (-1) (-1) .plains) (mkHexTile 0 0 0 .grass) ∧
      HexTile.distanceTo (mkHexTile 0 0 0 .grass) (mkHexTile 1 1 (-2) .hills) ≤
        HexTile.distanceTo (mkHexTile 0 0 0 .grass) (mkHexTile 2 (-1) (-1) .plains) +
          HexTile.distanceTo (mkHexTile 2 (-1) (-1) .plains) (mkHexTile 1 1 (-2) .hills) :=
  (distance_spec.1 (mkHexTile 0 0 0 .grass) (mkHexTile 2 (-1) (-1) .plains)
    (mkHexTile 1 1 (-2) .hills) (by decide) (by decide) (by decide))

/-- C8.  Debiting an action from a mover with exactly one action point twice
in a row: the first call succeeds and leaves zero points, the second fails
and still leaves zero; and starting from any non-negative count, no sequence
of debit calls ever drives the count negative. -/
theorem performAction_spec :
    (∀ u : UnitHex, u.actionPoints = 1 →
      (u.performAction.1 = true ∧ u.performAction.2.actionPoints = 0) ∧
        u.performAction.2.performAction.1 = false ∧
          u.performAction.2.performAction.2.actionPoints = 0) ∧
    (∀ (u : UnitHex) (n : ℕ), 0 ≤ u.actionPoints →
      0 ≤ (UnitHex.performActionIter n u).actionPoints) := by
  constructor
  · intro u h1
    unfold UnitHex.performAction
    rw [if_pos (by omega)]
    simp [h1]
  · intro u n h0
    induction n with
    | zero => exact h0
    | succ n ih =>
      unfold UnitHex.performActionIter UnitHex.performAction
      split_ifs with h <;> simp <;> omega

/-- Witness for C8 at a concrete unit with one action point. -/
theorem performAction_spec_witness :
    ((UnitHex.performAction ⟨(0, 0, 0), 2, 2, 1, 2⟩).1 = true ∧
        (UnitHex.performAction ⟨(0, 0, 0), 2, 2, 1, 2⟩).2.actionPoints = 0) ∧
      0 ≤ (UnitHex.performActionIter 5 ⟨(0, 0, 0), 2, 2, 1, 2⟩).actionPoints :=
  ⟨(performAction_spec.1 ⟨(0, 0, 0), 2, 2, 1, 2⟩ rfl).1,
    performAction_spec.2 ⟨(0, 0, 0), 2, 2, 1, 2⟩ 5 (by decide)⟩

/-- C9.  In the rectangular `Pathfinder`, the identical-coordinates check
precedes all grid validation, so `findPath(x, y, x, y)` is the empty path for
every coordinate pair — out-of-bounds and non-walkable ones included — on
every grid and with every budget. -/
theorem findPath_same_start_goal (g : Pathfinder.RGrid) (x y : ℤ)
    (mm : Option ℚ) : Pathfinder.findPath g x y x y mm = some [] := by
  unfold Pathfinder.findPath
  rw [if_pos ⟨rfl, rfl⟩]

/-- C10.  The rectangular engine's unit `move` debits exactly one movement
point on success (whatever the target), fails without any change when no
movement remains, the hex engine's `moveTo` behaves identically, the command
layer `moveUnit` authorizes a relocation for the owning player exactly when
its Manhattan distance is within the unit's remaining movement points, and a
successful `moveUnit` of a unit with movement left debits exactly one
point. -/
theorem move_debits_one :
    (∀ (u : UnitRect) (x y : ℤ), (u.move x y).1 = true →
      (u.move x y).2.movement = u.movement - 1) ∧
    (∀ (u : UnitRect) (x y : ℤ), u.movement = 0 → u.move x y = (false, u)) ∧
    (∀ (u : UnitHex) (p : ℤ × ℤ × ℤ), (u.moveTo p).1 = true →
      (u.moveTo p).2.movement = u.movement - 1) ∧
    (∀ (u : UnitHex) (p : ℤ × ℤ × ℤ), u.movement = 0 → u.moveTo p = (false, u)) ∧
    (∀ (e : EntityU) (pid toX toY : ℤ), e.unit.owner = pid →
      ((Game.moveUnit e pid toX toY).1 = true ↔
        |e.position.1 - toX| + |e.position.2 - toY| ≤ e.unit.movement)) ∧
    (∀ (e : EntityU) (pid toX toY : ℤ), (Game.moveUnit e pid toX toY).1 = true →
      0 < e.unit.movement →
      (Game.moveUnit e pid toX toY).2.unit.movement = e.unit.movement - 1) := by
  refine ⟨?_, ?_, ?_, ?_, ?_, ?_⟩
  · intro u x y h
    unfold UnitRect.move at h ⊢
    split_ifs at h ⊢ <;> simp_all
  · intro u x y h
    unfold UnitRect.move
    rw [if_neg (by omega)]
  · intro u p h
    unfold UnitHex.moveTo at h ⊢
    split_ifs at h ⊢ <;> simp_all
  · intro u p h
    unfold UnitHex.moveTo
    rw [if_neg (by omega)]
  · intro e pid toX toY hown
    unfold Game.moveUnit
    rw [if_neg (by simp [hown])]
    constructor
    · intro h
      by_contra hgt
      rw [if_pos (by omega)] at h
      simp at h
    · intro hle
      rw [if_neg (by omega)]
  · intro e pid toX toY hok hmov
    unfold Game.moveUnit at hok ⊢
    split_ifs at hok ⊢ <;> simp_all [UnitRect.move]

/-- Witness for C10 at a concrete entity (owner 0, position (0,0),
movement 2) moved to (1, 1). -/
theorem move_debits_one_witness :
    ((⟨0, (0, 0), 2, 2, 1⟩ : UnitRect).move 1 1).2.movement = 2 - 1 ∧
      (Game.moveUnit ⟨(0, 0), ⟨0, (0, 0), 2, 2, 1⟩⟩ 0 1 1).1 = true ∧
      ((⟨0, (5, 5), 0, 2, 1⟩ : UnitRect).move 1 1) = (false, ⟨0, (5, 5), 0, 2, 1⟩) :=
  ⟨move_debits_one.1 ⟨0, (0, 0), 2, 2, 1⟩ 1 1 (by decide),
    (move_debits_one.2.2.2.2.1 ⟨(0, 0), ⟨0, (0, 0), 2, 2, 1⟩⟩ 0 1 1 rfl).mpr (by decide),
    move_debits_one.2.1 ⟨0, (5, 5), 0, 2, 1⟩ 1 1 rfl⟩

/-- C2 (amended).  When start and goal coincide, the rectangular
`Pathfinder.findPath` returns the empty path (a zero-length success) for
every grid, coordinate and budget; the hex `GameMap.findPath`, however,
returns the one-element path consisting of the start tile, for every grid,
start tile and travel class. -/
theorem findPath_start_goal_spec :
    (∀ (g : Pathfinder.RGrid) (x y : ℤ) (mm : Option ℚ),
      Pathfinder.findPath g x y x y mm = some []) ∧
    (∀ (g : GameMap.Grid) (t : HexTile) (mt : GameMap.MoveType),
      GameMap.findPath g t t mt = some [t]) := by
  constructor
  · intro g x y mm
    unfold Pathfinder.findPath
    rw [if_pos ⟨rfl, rfl⟩]
  · intro g t mt
    unfold GameMap.findPath GameMap.findPathLoop
    simp [sortByKey, insertByKey, GameMap.reconstruct]
    intro h
    exact absurd rfl (h rfl)

/-- Counterexample for C2: on the one-tile grid, `GameMap.findPath` from the
grass tile at the origin to itself returns the singleton path, not the empty
path the claim requires. -/
theorem findPath_start_goal_cex :
    GameMap.findPath [mkHexTile 0 0 0 .grass] (mkHexTile 0 0 0 .grass)
        (mkHexTile 0 0 0 .grass) .infantry = some [mkHexTile 0 0 0 .grass] ∧
      GameMap.findPath [mkHexTile 0 0 0 .grass] (mkHexTile 0 0 0 .grass)
        (mkHexTile 0 0 0 .grass) .infantry ≠ some [] := by
  constructor
  · rfl
  · decide

/-- C1.  On the all-grass two-tile grid the naval movement cost to the
neighboring grass tile is `Infinity`, exactly as specified — but
`GameMap.findPath` still returns a (non-null) path onto land for a naval
mover, because only `passable`, not an infinite cost, gates neighbor
expansion: the claimed absent result does not occur. -/
theorem naval_all_grass_path :
    GameMap.getMovementCost (mkHexTile 0 0 0 .grass) (mkHexTile 1 0 (-1) .grass)
        .naval = ⊤ ∧
      GameMap.findPath [mkHexTile 0 0 0 .grass, mkHexTile 1 0 (-1) .grass]
        (mkHexTile 0 0 0 .grass) (mkHexTile 1 0 (-1) .grass) .naval =
        some [mkHexTile 0 0 0 .grass, mkHexTile 1 0 (-1) .grass] := by
  exact ⟨rfl, rfl⟩

/-- Counterexample for C3: on the all-grass two-tile grid, the non-empty path
`GameMap.findPath` returns for a land mover has the start tile itself as its
first element — the start is included, not excluded, and the first element is
not a neighbor of the start. -/
theorem path_includes_start_cex :
    GameMap.findPath [mkHexTile 0 0 0 .grass, mkHexTile 1 0 (-1) .grass]
        (mkHexTile 0 0 0 .grass) (mkHexTile 1 0 (-1) .grass) .infantry =
        some [mkHexTile 0 0 0 .grass, mkHexTile 1 0 (-1) .grass] ∧
      mkHexTile 0 0 0 .grass ∈ [mkHexTile 0 0 0 .grass, mkHexTile 1 0 (-1) .grass] := by
  exact ⟨rfl, List.mem_cons_self _ _⟩

namespace Pathfinder

/-- Unfolding `parLookup` over a cons cell. -/
theorem parLookup_cons (e : Coord × Coord) (rest : List (Coord × Coord)) (c : Coord) :
    parLookup (e :: rest) c = if e.1 = c then some e.2 else parLookup rest c := by
  by_cases h : e.1 = c <;> simp [parLookup, List.find?_cons, h]

/-- `parUpdate` sets the key it was given. -/
theorem parLookup_parUpdate_self (m : List (Coord × Coord)) (c p : Coord) :
    parLookup (parUpdate m c p) c = some p := by
  induction m with
  | nil => simp [parUpdate, parLookup_cons]
  | cons e rest ih =>
    by_cases h : e.1 = c
    · simp [parUpdate, h, parLookup_cons]
    · simp [parUpdate, h, parLookup_cons, ih]

/-- `parUpdate` leaves every other key unchanged. -/
theorem parLookup_parUpdate_ne (m : List (Coord × Coord)) (c p d : Coord) (h : d ≠ c) :
    parLookup (parUpdate m c p) d = parLookup m d := by
  induction m with
  | nil =>
    show parLookup [(c, p)] d = parLookup [] d
    rw [parLookup_cons, if_neg (fun hh => h hh.symm)]
  | cons e rest ih =>
    by_cases he : e.1 = c
    · rw [parUpdate, if_pos he, parLookup_cons, parLookup_cons, he,
        if_neg (fun hh => h hh.symm), if_neg (fun hh => h hh.symm)]
    · rw [parUpdate, if_neg he, parLookup_cons, parLookup_cons, ih]

/-- A lookup in an updated map is the fresh entry or an old entry. -/
theorem parLookup_parUpdate_cases (m : List (Coord × Coord)) (c p d q : Coord)
    (h : parLookup (parUpdate m c p) d = some q) :
    (d = c ∧ q = p) ∨ parLookup m d = some q := by
  by_cases hdc : d = c
  · subst hdc
    rw [parLookup_parUpdate_self] at h
    exact Or.inl ⟨rfl, (Option.some.inj h).symm⟩
  · rw [parLookup_parUpdate_ne m c p d hdc] at h
    exact Or.inr h

/-- A successful lookup means the coordinate is among the stored keys. -/
theorem mem_keys_of_parLookup (m : List (Coord × Coord)) (c q : Coord)
    (h : parLookup m c = some q) : c ∈ m.map Prod.fst := by
  induction m with
  | nil => simp [parLookup] at h
  | cons e rest ih =>
    rw [parLookup_cons] at h
    by_cases he : e.1 = c
    · exact List.mem_cons.2 (Or.inl he.symm)
    · rw [if_neg he] at h
      exact List.mem_cons.2 (Or.inr (ih h))

/-- Every coordinate collected by a walk has a parent entry. -/
theorem WalkFrom.lookup_isSome {m : List (Coord × Coord)} {root c : Coord}
    {l : List Coord} (h : WalkFrom m root c l) :
    ∀ x ∈ l, ∃ y, parLookup m x = some y := by
  induction h with
  | base _ => intro x hx; simp at hx
  | step hc _ ih =>
    intro x hx
    rcases List.mem_append.1 hx with h1 | h2
    · exact ih x h1
    · rw [List.mem_singleton.1 h2]
      exact ⟨_, hc⟩

/-- A walk over the empty map stays at its root. -/
theorem WalkFrom.of_parMap_nil {root c : Coord} {l : List Coord}
    (h : WalkFrom [] root c l) : c = root ∧ l = [] := by
  cases h with
  | base _ => exact ⟨rfl, rfl⟩
  | step hc _ => simp [parLookup] at hc

/-- An empty-chain walk starts at its root. -/
theorem WalkFrom.eq_root_of_nil {m : List (Coord × Coord)} {root c : Coord}
    (h : WalkFrom m root c []) : c = root := by
  generalize hl : ([] : List Coord) = l at h
  induction h with
  | base _ => rfl
  | step _ _ _ => simp at hl

/-- The walk ends at the coordinate it started from. -/
theorem WalkFrom.cons_getLast {m : List (Coord × Coord)} {root c : Coord}
    {l : List Coord} (h : WalkFrom m root c l) :
    (root :: l).getLast (List.cons_ne_nil _ _) = c := by
  induction h with
  | base _ => rfl
  | step hc hw ih =>
    rename_i cc pp ll
    show ((root :: ll) ++ [cc]).getLast (by simp) = cc
    exact List.getLast_append_singleton _

/-- The first collected coordinate is a child of the root. -/
theorem WalkFrom.head_lookup_root {m : List (Coord × Coord)} {root c : Coord}
    {l : List Coord} (h : WalkFrom m root c l) :
    ∀ hd, l.head? = some hd → parLookup m hd = some root := by
  induction h with
  | base _ => intro hd hhd; simp at hhd
  | step hc hw ih =>
    rename_i c' p' l'
    intro hd hhd
    cases l' with
    | nil =>
      simp at hhd
      subst hhd
      rw [hw.eq_root_of_nil] at hc
      exact hc
    | cons a t =>
      simp at hhd
      exact ih hd (by rw [← hhd]; rfl)

/-- Updating an unrelated key preserves a walk. -/
theorem WalkFrom.parUpdate_preserve {m : List (Coord × Coord)} {root c : Coord}
    {l : List Coord} (h : WalkFrom m root c l) (d p : Coord)
    (hd1 : d ∉ l) (hd2 : d ≠ root) :
    WalkFrom (parUpdate m d p) root c l := by
  induction h with
  | base hb =>
    exact .base (by rw [parLookup_parUpdate_ne _ _ _ _ (Ne.symm hd2)]; exact hb)
  | step hc hw ih =>
    rename_i c' p' l'
    have hdc : c' ≠ d := by
      intro hh
      exact hd1 (by rw [← hh]; exact List.mem_append_right _ (by simp))
    exact .step (by rw [parLookup_parUpdate_ne _ _ _ _ hdc]; exact hc)
      (ih (fun hx => hd1 (List.mem_append_left _ hx)))

/-- A fueled reconstruction walk follows a `WalkFrom` chain exactly. -/
theorem reconWalk_eq_of_walkFrom {m : List (Coord × Coord)} {root c : Coord}
    {l : List Coord} (h : WalkFrom m root c l) :
    ∀ (acc : List Coord) (fuel : ℕ), l.length < fuel →
      reconWalk m fuel c acc = some (l ++ acc) := by
  induction h with
  | base hb =>
    intro acc fuel hf
    cases fuel with
    | zero => omega
    | succ k => simp [reconWalk, hb]
  | step hc hw ih =>
    rename_i cc pp ll
    intro acc fuel hf
    cases fuel with
    | zero => omega
    | succ k =>
      simp only [reconWalk, hc]
      rw [ih (cc :: acc) k (by simp at hf; omega)]
      simp

/-- `reconstructPath` returns exactly the chain of an acyclic walk: the fuel
`m.length + 1` outlasts the chain because the chain's coordinates are
pairwise-distinct keys of the parent map. -/
theorem reconstructPath_eq_of_walkFrom {m : List (Coord × Coord)} {root c : Coord}
    {l : List Coord} (h : WalkFrom m root c l) (hnd : l.Nodup) :
    reconstructPath m c = some l := by
  have hsub : l ⊆ m.map Prod.fst := by
    intro x hx
    obtain ⟨y, hy⟩ := h.lookup_isSome x hx
    exact mem_keys_of_parLookup m x y hy
  have hlen : l.length ≤ m.length := by
    have := (List.subperm_of_subset hnd hsub).length_le
    simpa using this
  have := reconWalk_eq_of_walkFrom h [] (m.length + 1) (by omega)
  simpa [reconstructPath] using this

/-- Appending one step to a coordinate path adds one edge cost. -/
theorem pathCost_append_last (g : RGrid) :
    ∀ (xs : List Coord) (hne : xs ≠ []) (y : Coord),
      pathCost g (xs ++ [y]) = pathCost g xs + getMovementCost g (xs.getLast hne) y := by
  intro xs
  induction xs with
  | nil => intro h; exact absurd rfl h
  | cons a t ih =>
    intro _ y
    cases t with
    | nil =>
      show pathCost g [a, y] = pathCost g [a] + getMovementCost g a y
      show getMovementCost g a y + pathCost g [y] = pathCost g [a] + getMovementCost g a y
      show getMovementCost g a y + 0 = 0 + getMovementCost g a y
      rw [add_zero, zero_add]
    | cons b t2 =>
      show getMovementCost g a b + pathCost g ((b :: t2) ++ [y]) = _
      rw [ih (by simp) y, ← add_assoc]
      rfl

/-- Stable insertion is a permutation of consing. -/
theorem insertByKey_perm {α : Type} (key : α → WithTop ℚ) (a : α) (l : List α) :
    List.Perm (insertByKey key a l) (a :: l) := by
  induction l with
  | nil => exact List.Perm.refl _
  | cons b rest ih =>
    by_cases h : key b < key a
    · rw [insertByKey, if_pos h]
      exact (ih.cons b).trans (List.Perm.swap a b rest)
    · rw [insertByKey, if_neg h]

/-- The stable sort is a permutation of its input. -/
theorem sortByKey_perm {α : Type} (key : α → WithTop ℚ) (l : List α) :
    List.Perm (sortByKey key l) l := by
  induction l with
  | nil => exact List.Perm.refl _
  | cons a rest ih =>
    exact (insertByKey_perm key a (sortByKey key rest)).trans (ih.cons a)

end Pathfinder

namespace Pathfinder

/-- A failed open-set search means no open node carries the coordinate. -/
theorem findNode_eq_none_iff (l : List RNode) (c : Coord) :
    findNode l c = none ↔ ∀ n ∈ l, nodeCoord n ≠ c := by
  unfold findNode
  rw [List.find?_eq_none]
  apply forall_congr'
  intro n
  apply imp_congr Iff.rfl
  constructor
  · intro h hc
    apply h
    have : n.x = c.1 ∧ n.y = c.2 := by
      constructor
      · rw [← hc]; rfl
      · rw [← hc]; rfl
    simp [this]
  · intro h hb
    simp at hb
    apply h
    show (n.x, n.y) = c
    rw [hb.1, hb.2]

/-- `updateNode` preserves the coordinates of the open set. -/
theorem updateNode_map_nodeCoord (l : List RNode) (c : Coord) (tg : WithTop ℚ) :
    (updateNode l c tg).map nodeCoord = l.map nodeCoord := by
  induction l with
  | nil => rfl
  | cons n rest ih =>
    by_cases h : n.x = c.1 ∧ n.y = c.2
    · simp only [updateNode, if_pos h, List.map_cons]
      rfl
    · simp only [updateNode, if_neg h, List.map_cons, ih]

/-- Membership in a relaxed open set with pairwise-distinct coordinates: the
relaxed node on the target coordinates (with the new cost), or an untouched
node on other coordinates. -/
theorem mem_updateNode (l : List RNode) (c : Coord) (tg : WithTop ℚ)
    (hnd : (l.map nodeCoord).Nodup) :
    ∀ n' ∈ updateNode l c tg,
      (nodeCoord n' = c ∧ n'.g = tg) ∨ (n' ∈ l ∧ nodeCoord n' ≠ c) := by
  induction l with
  | nil => intro n' h; simp [updateNode] at h
  | cons n rest ih =>
    intro n' h
    rw [List.map_cons, List.nodup_cons] at hnd
    by_cases hm : n.x = c.1 ∧ n.y = c.2
    · rw [updateNode, if_pos hm] at h
      have hcc : nodeCoord n = c := by
        show (n.x, n.y) = c
        rw [hm.1, hm.2]
      rcases List.mem_cons.1 h with h1 | h2
      · left
        constructor
        · rw [h1]; exact hcc
        · rw [h1]
      · right
        refine ⟨List.mem_cons_of_mem _ h2, fun hc => ?_⟩
        exact hnd.1 (by rw [← hcc] at hc; exact hc ▸ List.mem_map_of_mem nodeCoord h2)
    · rw [updateNode, if_neg hm] at h
      rcases List.mem_cons.1 h with h1 | h2
      · right
        refine ⟨by rw [h1]; exact List.mem_cons_self _ _, fun hc => ?_⟩
        apply hm
        rw [h1] at hc
        exact ⟨by rw [← hc]; rfl, by rw [← hc]; rfl⟩
      · rcases ih hnd.2 n' h2 with hA | hB
        · exact Or.inl hA
        · exact Or.inr ⟨List.mem_cons_of_mem _ hB.1, hB.2⟩

end Pathfinder

namespace Pathfinder

/-- The relaxation step preserves the search invariant, provided the neighbor
is a walkable neighbor of the popped node, it is not closed, and its tentative
cost respects the budget (the caller's pruning guarantees the latter). -/
theorem relaxStep_pinv (g : RGrid) (mb : Option ℚ) (s : Coord) (cur : RNode)
    (lcur : List Coord) (closedA : List Coord) (endX endY : ℤ) (st : SState)
    (nb : Coord)
    (hnb : nb ∈ getNeighbors g cur.x cur.y)
    (hcg : cur.g = pathCost g (s :: lcur))
    (hlnd : lcur.Nodup)
    (hlsub : ∀ c ∈ lcur, c ∈ closedA)
    (hscl : s ∈ closedA)
    (hnbA : nb ∉ closedA)
    (hb : ∀ b : ℚ, mb = some b →
      cur.g + getMovementCost g (cur.x, cur.y) nb ≤ (b : WithTop ℚ))
    (hpi : PInv g mb s cur lcur closedA st) :
    PInv g mb s cur lcur closedA (relaxStep g endX endY cur st nb) := by
  obtain ⟨hinv, hcl, hchain⟩ := hpi
  have hnbs : nb ≠ s := fun h => hnbA (h ▸ hscl)
  have hnbl : nb ∉ lcur := fun h => hnbA (hlsub nb h)
  have hnbcl : nb ∉ st.closedSet := by rw [hcl]; exact hnbA
  have hchain' : WalkFrom (parUpdate st.parMap nb (cur.x, cur.y)) s (nodeCoord cur) lcur :=
    hchain.parUpdate_preserve nb (cur.x, cur.y) hnbl hnbs
  have hwnew : WalkFrom (parUpdate st.parMap nb (cur.x, cur.y)) s nb (lcur ++ [nb]) := by
    have := WalkFrom.step (parLookup_parUpdate_self st.parMap nb (cur.x, cur.y)) hchain'
    exact this
  have hlast : (s :: lcur).getLast (List.cons_ne_nil _ _) = (cur.x, cur.y) :=
    hchain.cons_getLast
  have hgnew : cur.g + getMovementCost g (cur.x, cur.y) nb =
      pathCost g (s :: (lcur ++ [nb])) := by
    rw [hcg, show s :: (lcur ++ [nb]) = (s :: lcur) ++ [nb] from rfl,
      pathCost_append_last g (s :: lcur) (List.cons_ne_nil _ _) nb, hlast]
  have hndnew : (lcur ++ [nb]).Nodup := by
    rw [List.nodup_append]
    refine ⟨hlnd, List.nodup_singleton _, ?_⟩
    intro a ha hb'
    rw [List.mem_singleton.1 hb'] at ha
    exact hnbl ha
  have hsubnew : ∀ c ∈ lcur ++ [nb], c ∈ st.closedSet ∨ c = nb := by
    intro c hc
    rcases List.mem_append.1 hc with h1 | h2
    · rw [hcl]
      exact Or.inl (hlsub c h1)
    · exact Or.inr (List.mem_singleton.1 h2)
  have hparOk' : ∀ c p : Coord,
      parLookup (parUpdate st.parMap nb (cur.x, cur.y)) c = some p →
      c ∈ getNeighbors g p.1 p.2 ∧ c ≠ s := by
    intro c p hcp
    rcases parLookup_parUpdate_cases _ _ _ _ _ hcp with ⟨hc1, hc2⟩ | hold
    · rw [hc1, hc2]
      exact ⟨hnb, hnbs⟩
    · exact hinv.parOk c p hold
  have hpres : ∀ n ∈ st.openSet, nodeCoord n ≠ nb →
      ∃ l : List Coord,
        WalkFrom (parUpdate st.parMap nb (cur.x, cur.y)) s (nodeCoord n) l ∧
        n.g = pathCost g (s :: l) ∧ l.Nodup ∧
        (∀ c ∈ l, c ∈ st.closedSet ∨ c = nodeCoord n) := by
    intro n hn hne
    obtain ⟨l, hw, hgq, hndq, hsq⟩ := hinv.chains n hn
    refine ⟨l, hw.parUpdate_preserve nb _ ?_ hnbs, hgq, hndq, hsq⟩
    intro hxl
    rcases hsq nb hxl with h1 | h2
    · exact hnbcl h1
    · exact hne h2.symm
  have hetanb : ((nb.1, nb.2) : Coord) = nb := rfl
  simp only [relaxStep]
  cases hfind : findNode st.openSet nb with
  | none =>
    have hnomem : ∀ n ∈ st.openSet, nodeCoord n ≠ nb := (findNode_eq_none_iff _ _).1 hfind
    simp only [hfind]
    refine ⟨⟨?_, ?_, hparOk', ?_, ?_, ?_⟩, hcl, hchain'⟩
    · rw [List.map_append]
      refine List.Nodup.append hinv.coordsNodup (List.nodup_singleton _) ?_
      intro a ha hb'
      rw [List.mem_singleton.1 hb'] at ha
      obtain ⟨n, hn, hcn⟩ := List.mem_map.1 ha
      exact hnomem n hn (by rw [hcn]; exact hetanb)
    · intro n' hn'
      rcases List.mem_append.1 hn' with h1 | h2
      · exact hinv.openNotClosed n' h1
      · rw [List.mem_singleton.1 h2]
        show ((nb.1, nb.2) : Coord) ∉ st.closedSet
        rw [hetanb]
        exact hnbcl
    · intro n' hn'
      rcases List.mem_append.1 hn' with h1 | h2
      · exact hpres n' h1 (hnomem n' h1)
      · rw [List.mem_singleton.1 h2]
        refine ⟨lcur ++ [nb], ?_, ?_, hndnew, ?_⟩
        · show WalkFrom _ s ((nb.1, nb.2) : Coord) _
          rw [hetanb]
          exact hwnew
        · exact hgnew
        · intro c hc
          rcases hsubnew c hc with h1 | h2
          · exact Or.inl h1
          · refine Or.inr ?_
            rw [h2]
            exact hetanb.symm
    · intro b hmb n' hn' hne
      rcases List.mem_append.1 hn' with h1 | h2
      · exact hinv.gbound b hmb n' h1 hne
      · rw [List.mem_singleton.1 h2]
        exact hb b hmb
    · refine Or.inl ?_
      rw [hcl]
      exact hscl
  | some exN =>
    simp only [hfind]
    by_cases hlt : cur.g + getMovementCost g (cur.x, cur.y) nb < exN.g
    · rw [if_pos hlt]
      refine ⟨⟨?_, ?_, hparOk', ?_, ?_, ?_⟩, hcl, hchain'⟩
      · rw [updateNode_map_nodeCoord]
        exact hinv.coordsNodup
      · intro n' hn'
        rcases mem_updateNode st.openSet nb _ hinv.coordsNodup n' hn' with ⟨hc, _⟩ | ⟨hm, _⟩
        · rw [hc]
          exact hnbcl
        · exact hinv.openNotClosed n' hm
      · intro n' hn'
        rcases mem_updateNode st.openSet nb _ hinv.coordsNodup n' hn' with ⟨hc, hg'⟩ | ⟨hm, hc⟩
        · refine ⟨lcur ++ [nb], ?_, ?_, hndnew, ?_⟩
          · rw [hc]
            exact hwnew
          · rw [hg', hgnew]
          · intro c hcc
            rcases hsubnew c hcc with h1 | h2
            · exact Or.inl h1
            · exact Or.inr (by rw [h2, hc])
        · exact hpres n' hm hc
      · intro b hmb n' hn' hne
        rcases mem_updateNode st.openSet nb _ hinv.coordsNodup n' hn' with ⟨_, hg'⟩ | ⟨hm, _⟩
        · rw [hg']
          exact hb b hmb
        · exact hinv.gbound b hmb n' hm hne
      · refine Or.inl ?_
        rw [hcl]
        exact hscl
    · rw [if_neg hlt]
      exact ⟨hinv, hcl, hchain⟩

end Pathfinder

namespace Pathfinder

/-- One full neighbor step (closed-set skip and budget pruning included)
preserves the search invariant. -/
theorem processNeighbor_pinv (g : RGrid) (mb : Option ℚ) (s : Coord)
    (cur : RNode) (lcur : List Coord) (closedA : List Coord) (endX endY : ℤ)
    (st : SState) (nb : Coord)
    (hnb : nb ∈ getNeighbors g cur.x cur.y)
    (hcg : cur.g = pathCost g (s :: lcur))
    (hlnd : lcur.Nodup)
    (hlsub : ∀ c ∈ lcur, c ∈ closedA)
    (hscl : s ∈ closedA)
    (hpi : PInv g mb s cur lcur closedA st) :
    PInv g mb s cur lcur closedA (processNeighbor g mb endX endY cur st nb) := by
  obtain ⟨hinv, hcl, hchain⟩ := hpi
  unfold processNeighbor
  by_cases hnbc : nb ∈ st.closedSet
  · rw [if_pos hnbc]
    exact ⟨hinv, hcl, hchain⟩
  · rw [if_neg hnbc]
    have hnbA : nb ∉ closedA := by rw [← hcl]; exact hnbc
    cases hmb : mb with
    | none =>
      rw [hmb] at hinv
      exact relaxStep_pinv g none s cur lcur closedA endX endY st nb hnb hcg hlnd
        hlsub hscl hnbA (fun b hb' => by cases hb') ⟨hinv, hcl, hchain⟩
    | some b =>
      rw [hmb] at hinv
      show PInv g (some b) s cur lcur closedA
        (if (b : WithTop ℚ) < cur.g + getMovementCost g (cur.x, cur.y) nb then st
          else relaxStep g endX endY cur st nb)
      by_cases hblt : (b : WithTop ℚ) < cur.g + getMovementCost g (cur.x, cur.y) nb
      · rw [if_pos hblt]
        exact ⟨hinv, hcl, hchain⟩
      · rw [if_neg hblt]
        refine relaxStep_pinv g (some b) s cur lcur closedA endX endY st nb hnb hcg hlnd
          hlsub hscl hnbA ?_ ⟨hinv, hcl, hchain⟩
        intro b' hb'
        injection hb' with hbb
        rw [← hbb]
        exact le_of_not_lt hblt

/-- Folding the neighbor step over any list of walkable neighbors of the
popped node preserves the search invariant. -/
theorem foldl_processNeighbor_pinv (g : RGrid) (mb : Option ℚ) (s : Coord)
    (cur : RNode) (lcur : List Coord) (closedA : List Coord) (endX endY : ℤ)
    (hcg : cur.g = pathCost g (s :: lcur))
    (hlnd : lcur.Nodup)
    (hlsub : ∀ c ∈ lcur, c ∈ closedA)
    (hscl : s ∈ closedA) :
    ∀ (nbs : List Coord) (st : SState),
      (∀ nb ∈ nbs, nb ∈ getNeighbors g cur.x cur.y) →
      PInv g mb s cur lcur closedA st →
      PInv g mb s cur lcur closedA
        (nbs.foldl (processNeighbor g mb endX endY cur) st) := by
  intro nbs
  induction nbs with
  | nil => intro st _ h; exact h
  | cons nb rest ih =>
    intro st hmem h
    exact ih _ (fun x hx => hmem x (List.mem_cons_of_mem _ hx))
      (processNeighbor_pinv g mb s cur lcur closedA endX endY st nb
        (hmem nb (List.mem_cons_self _ _)) hcg hlnd hlsub hscl h)

end Pathfinder

namespace Pathfinder

/-- Soundness of the A* loop: any returned path is the parent chain of the
goal, built from walkable-neighbor steps that never revisit the start, whose
accumulated cost respects a supplied budget. -/
theorem astarLoop_sound (g : RGrid) (mb : Option ℚ) (endX endY : ℤ) (s : Coord) :
    ∀ (fuel : ℕ) (st : SState) (p : List Coord),
      Inv g mb s st →
      astarLoop g mb endX endY fuel st = some p →
      ∃ m : List (Coord × Coord),
        (∀ c q : Coord, parLookup m c = some q → c ∈ getNeighbors g q.1 q.2 ∧ c ≠ s) ∧
        WalkFrom m s (endX, endY) p ∧
        (∀ b : ℚ, mb = some b → ((endX, endY) : Coord) ≠ s →
          pathCost g (s :: p) ≤ (b : WithTop ℚ)) := by
  intro fuel
  induction fuel with
  | zero =>
    intro st p _ h
    simp [astarLoop] at h
  | succ k ih =>
    intro st p hinv h
    rw [astarLoop] at h
    cases hsort : sortByKey RNode.f st.openSet with
    | nil =>
      simp only [hsort] at h
      cases h
    | cons cur rest =>
      simp only [hsort] at h
      have hperm : List.Perm (cur :: rest) st.openSet := by
        rw [← hsort]
        exact sortByKey_perm RNode.f st.openSet
      have hcur_mem : cur ∈ st.openSet := hperm.subset (List.mem_cons_self _ _)
      by_cases hgoal : cur.x = endX ∧ cur.y = endY
      · rw [if_pos hgoal] at h
        obtain ⟨l, hw, hg, hnd, _⟩ := hinv.chains cur hcur_mem
        have hrec : reconstructPath st.parMap (nodeCoord cur) = some l :=
          reconstructPath_eq_of_walkFrom hw hnd
        have hcc : nodeCoord cur = ((endX, endY) : Coord) := by
          show (cur.x, cur.y) = (endX, endY)
          rw [hgoal.1, hgoal.2]
        have hp : p = l := by
          rw [show ((cur.x, cur.y) : Coord) = nodeCoord cur from rfl, hrec] at h
          exact (Option.some.inj h).symm
        subst hp
        refine ⟨st.parMap, hinv.parOk, ?_, ?_⟩
        · rw [← hcc]
          exact hw
        · intro b hmb hne
          have hgb := hinv.gbound b hmb cur hcur_mem (by rw [hcc]; exact hne)
          rw [← hg]
          exact hgb
      · rw [if_neg hgoal] at h
        obtain ⟨lcur, hw, hcg, hlnd, hsubl⟩ := hinv.chains cur hcur_mem
        have hrest_sub : ∀ n ∈ rest, n ∈ st.openSet :=
          fun n hn => hperm.subset (List.mem_cons_of_mem _ hn)
        have hsorted_nodup : ((cur :: rest).map nodeCoord).Nodup :=
          (hperm.map nodeCoord).nodup_iff.2 hinv.coordsNodup
        have hsplit : nodeCoord cur ∉ rest.map nodeCoord ∧ (rest.map nodeCoord).Nodup := by
          have hh := hsorted_nodup
          rw [List.map_cons, List.nodup_cons] at hh
          exact hh
        have hccrest : ∀ n ∈ rest, nodeCoord n ≠ nodeCoord cur := by
          intro n hn hcn
          exact hsplit.1 (hcn ▸ List.mem_map_of_mem nodeCoord hn)
        have hscl2 : s ∈ st.closedSet ++ [nodeCoord cur] := by
          rcases hinv.phase with hl | ⟨hc0, hp0⟩
          · exact List.mem_append_left _ hl
          · rw [hp0] at hw
            obtain ⟨hcs, -⟩ := hw.of_parMap_nil
            rw [hc0]
            simp [hcs]
        have hlsub2 : ∀ c ∈ lcur, c ∈ st.closedSet ++ [nodeCoord cur] := by
          intro c hc
          rcases hsubl c hc with h1 | h2
          · exact List.mem_append_left _ h1
          · rw [h2]
            exact List.mem_append_right _ (List.mem_singleton_self _)
        have hpinv1 : PInv g mb s cur lcur (st.closedSet ++ [nodeCoord cur])
            ⟨rest, st.closedSet ++ [(cur.x, cur.y)], st.parMap⟩ := by
          refine ⟨⟨hsplit.2, ?_, hinv.parOk, ?_, ?_, ?_⟩, rfl, hw⟩
          · intro n hn hmem
            rcases List.mem_append.1 hmem with h1 | h2
            · exact hinv.openNotClosed n (hrest_sub n hn) h1
            · exact hccrest n hn (List.mem_singleton.1 h2)
          · intro n hn
            obtain ⟨l, hw', hg', hnd', hsub'⟩ := hinv.chains n (hrest_sub n hn)
            exact ⟨l, hw', hg', hnd',
              fun c hc => (hsub' c hc).elim (fun hh => Or.inl (List.mem_append_left _ hh))
                Or.inr⟩
          · intro b hmb n hn hne
            exact hinv.gbound b hmb n (hrest_sub n hn) hne
          · exact Or.inl hscl2
        have hP2 := foldl_processNeighbor_pinv g mb s cur lcur
          (st.closedSet ++ [nodeCoord cur]) endX endY hcg hlnd hlsub2 hscl2
          (getNeighbors g cur.x cur.y) _ (fun nb hnb => hnb) hpinv1
        exact ih _ p hP2.1 h

end Pathfinder

namespace Pathfinder

/-- The search state `findPath` starts from satisfies the invariant. -/
theorem inv_init (g : RGrid) (mb : Option ℚ) (sx sy : ℤ) (h0 : WithTop ℚ) :
    Inv g mb (sx, sy) ⟨[⟨sx, sy, 0, h0, 0 + h0⟩], [], []⟩ := by
  refine ⟨?_, ?_, ?_, ?_, ?_, ?_⟩
  · simp
  · intro n hn
    simp
  · intro c q hq
    simp [parLookup] at hq
  · intro n hn
    rw [List.mem_singleton.1 hn]
    exact ⟨[], .base rfl, rfl, List.nodup_nil, fun c hc => absurd hc (List.not_mem_nil c)⟩
  · intro b hmb n hn hne
    rw [List.mem_singleton.1 hn] at hne
    exact absurd rfl hne
  · exact Or.inr ⟨rfl, rfl⟩

end Pathfinder

/-- C4.  In the rectangular `Pathfinder`, a neighbor whose tentative
accumulated cost exceeds a supplied budget is pruned — the neighbor step
returns the search state unchanged, so the neighbor is neither added to nor
relaxed in the open set — and consequently every path `findPath` returns
under a (non-negative) budget has total movement cost at most that budget. -/
theorem findPath_budget_bound :
    (∀ (g : Pathfinder.RGrid) (b : ℚ) (endX endY : ℤ) (cur : Pathfinder.RNode)
        (st : Pathfinder.SState) (nb : Pathfinder.Coord),
      (b : WithTop ℚ) < cur.g + Pathfinder.getMovementCost g (cur.x, cur.y) nb →
      Pathfinder.processNeighbor g (some b) endX endY cur st nb = st) ∧
    (∀ (g : Pathfinder.RGrid) (sx sy ex ey : ℤ) (b : ℚ) (p : List Pathfinder.Coord),
      0 ≤ b →
      Pathfinder.findPath g sx sy ex ey (some b) = some p →
      Pathfinder.pathCost g ((sx, sy) :: p) ≤ (b : WithTop ℚ)) := by
  constructor
  · intro g b endX endY cur st nb hgt
    unfold Pathfinder.processNeighbor
    by_cases hnbc : nb ∈ st.closedSet
    · rw [if_pos hnbc]
    · rw [if_neg hnbc]
      show (if (b : WithTop ℚ) < cur.g + Pathfinder.getMovementCost g (cur.x, cur.y) nb
        then st else Pathfinder.relaxStep g endX endY cur st nb) = st
      rw [if_pos hgt]
  · intro g sx sy ex ey b p hb h
    unfold Pathfinder.findPath at h
    by_cases hsame : sx = ex ∧ sy = ey
    · rw [if_pos hsame] at h
      rw [← Option.some.inj h]
      show (0 : WithTop ℚ) ≤ (b : WithTop ℚ)
      exact_mod_cast hb
    · rw [if_neg hsame] at h
      cases hget : Pathfinder.getTileAt g ex ey with
      | none =>
        simp only [hget] at h
        cases h
      | some t =>
        simp only [hget] at h
        by_cases hwal : t.walkable = false
        · rw [if_pos hwal] at h
          cases h
        · rw [if_neg hwal] at h
          obtain ⟨m, hpar, hwalk, hbound⟩ :=
            Pathfinder.astarLoop_sound g (some b) ex ey (sx, sy) _ _ p
              (Pathfinder.inv_init g (some b) sx sy _) h
          refine hbound b rfl ?_
          intro heq
          apply hsame
          have h1 : ex = sx := congrArg Prod.fst heq
          have h2 : ey = sy := congrArg Prod.snd heq
          exact ⟨h1.symm, h2.symm⟩

unseal Rat.add in
/-- Witness for C4: on the 2×2 all-grass grid, the path found from (0,0) to
(1,1) within budget 5 costs at most 5; and a neighbor whose tentative cost 7
exceeds budget 5 leaves the empty search state untouched.  (`Rat.add` is
unsealed so that the embedded search evaluates by reduction.) -/
theorem findPath_budget_bound_witness :
    Pathfinder.pathCost
        [[⟨0, 0, true, 1⟩, ⟨0, 1, true, 1⟩], [⟨1, 0, true, 1⟩, ⟨1, 1, true, 1⟩]]
        ((0, 0) :: [(1, 0), (1, 1)]) ≤ ((5 : ℚ) : WithTop ℚ) ∧
      Pathfinder.processNeighbor
        [[⟨0, 0, true, 1⟩, ⟨0, 1, true, 1⟩], [⟨1, 0, true, 1⟩, ⟨1, 1, true, 1⟩]]
        (some 5) 1 1 ⟨0, 0, ((7 : ℚ) : WithTop ℚ), 0, 0⟩ ⟨[], [], []⟩ (1, 0) =
        ⟨[], [], []⟩ :=
  ⟨findPath_budget_bound.2
      [[⟨0, 0, true, 1⟩, ⟨0, 1, true, 1⟩], [⟨1, 0, true, 1⟩, ⟨1, 1, true, 1⟩]]
      0 0 1 1 5 [(1, 0), (1, 1)] (by norm_num) (by rfl),
    findPath_budget_bound.1
      [[⟨0, 0, true, 1⟩, ⟨0, 1, true, 1⟩], [⟨1, 0, true, 1⟩, ⟨1, 1, true, 1⟩]]
      5 1 1 ⟨0, 0, ((7 : ℚ) : WithTop ℚ), 0, 0⟩ ⟨[], [], []⟩ (1, 0) (by decide)⟩

/-- C3 (amended).  In the rectangular `Pathfinder`, every non-absent,
non-empty returned path excludes the start, ends exactly at the goal, and
begins at a walkable neighbor of the start.  (The hex `GameMap.findPath`, by
contrast, includes the start tile as the path's first element.) -/
theorem findPath_path_shape :
    ∀ (g : Pathfinder.RGrid) (sx sy ex ey : ℤ) (mm : Option ℚ)
      (p : List Pathfinder.Coord),
      Pathfinder.findPath g sx sy ex ey mm = some p → p ≠ [] →
      ((sx, sy) : Pathfinder.Coord) ∉ p ∧
      p.getLast? = some ((ex, ey) : Pathfinder.Coord) ∧
      ∃ (c : Pathfinder.Coord) (rest : List Pathfinder.Coord),
        p = c :: rest ∧ c ∈ Pathfinder.getNeighbors g sx sy := by
  intro g sx sy ex ey mm p h hne
  unfold Pathfinder.findPath at h
  by_cases hsame : sx = ex ∧ sy = ey
  · rw [if_pos hsame] at h
    exact absurd (Option.some.inj h).symm hne
  · rw [if_neg hsame] at h
    cases hget : Pathfinder.getTileAt g ex ey with
    | none =>
      simp only [hget] at h
      cases h
    | some t =>
      simp only [hget] at h
      by_cases hwal : t.walkable = false
      · rw [if_pos hwal] at h
        cases h
      · rw [if_neg hwal] at h
        obtain ⟨m, hpar, hwalk, -⟩ :=
          Pathfinder.astarLoop_sound g mm ex ey (sx, sy) _ _ p
            (Pathfinder.inv_init g mm sx sy _) h
        refine ⟨?_, ?_, ?_⟩
        · intro hmem
          obtain ⟨y, hy⟩ := hwalk.lookup_isSome _ hmem
          exact (hpar _ y hy).2 rfl
        · cases p with
          | nil => exact absurd rfl hne
          | cons a rest2 =>
            have hlast := hwalk.cons_getLast
            rw [List.getLast_cons (List.cons_ne_nil a rest2)] at hlast
            rw [List.getLast?_eq_getLast (a :: rest2) (List.cons_ne_nil a rest2), hlast]
        · cases p with
          | nil => exact absurd rfl hne
          | cons a rest2 =>
            refine ⟨a, rest2, rfl, ?_⟩
            have hh := hwalk.head_lookup_root a rfl
            exact (hpar a (sx, sy) hh).1

unseal Rat.add in
/-- Witness for C3's amended theorem at a concrete run: the path from (0,0)
to (1,1) on the 2×2 all-grass grid avoids the start, ends at the goal, and
starts at a neighbor of the start. -/
theorem findPath_path_shape_witness :
    ((0, 0) : Pathfinder.Coord) ∉ ([(1, 0), (1, 1)] : List Pathfinder.Coord) ∧
      ([(1, 0), (1, 1)] : List Pathfinder.Coord).getLast? =
        some ((1, 1) : Pathfinder.Coord) ∧
      ∃ (c : Pathfinder.Coord) (rest : List Pathfinder.Coord),
        ([(1, 0), (1, 1)] : List Pathfinder.Coord) = c :: rest ∧
          c ∈ Pathfinder.getNeighbors
            [[⟨0, 0, true, 1⟩, ⟨0, 1, true, 1⟩], [⟨1, 0, true, 1⟩, ⟨1, 1, true, 1⟩]] 0 0 :=
  findPath_path_shape
    [[⟨0, 0, true, 1⟩, ⟨0, 1, true, 1⟩], [⟨1, 0, true, 1⟩, ⟨1, 1, true, 1⟩]]
    0 0 1 1 (some 5) [(1, 0), (1, 1)] (by rfl) (by decide)
